import Mathlib

/-!
Shallow embedding of the collaboration-graph builder and path-query engine of
`arxiv_api` (`src/arxiv_api/clients/graph_client.py` together with the query
interface of `src/arxiv_api/clients/arxiv_client.py`), and proofs about it.

The `networkx.Graph` instances used by the code are modelled as insertion-ordered
node and edge lists with set semantics for undirected edges; the external ArXiv
query is modelled as an abstract function from an author name to either a failure
(a raised exception) or a list of publications, each publication being its list
of author names (which is exactly what `ArxivClient.get_coauthors` extracts).
File I/O is modelled by passing a CSV file as its list of rows, each row a list
of fields.
-/

namespace ArxivApi

/-- An author is identified solely by its name string. -/
abbrev Author := String

/-- Model of the `networkx.Graph` objects built by `graph_client.py`:
an insertion-ordered node list and an insertion-ordered list of undirected
edges, at most one stored copy per unordered pair. -/
structure Graph where
  nodes : List Author
  edges : List (Author × Author)
deriving DecidableEq, Repr

/-- The empty graph, `nx.Graph()`. -/
def Graph.empty : Graph := ⟨[], []⟩

/-- `G.has_node(a)`. -/
def Graph.hasNodeB (g : Graph) (a : Author) : Bool := decide (a ∈ g.nodes)

/-- `G.has_edge(u, v)` for the undirected graph: the edge is stored in either
orientation. -/
def Graph.hasEdgeB (g : Graph) (u v : Author) : Bool :=
  decide ((u, v) ∈ g.edges) || decide ((v, u) ∈ g.edges)

/-- `G.add_node(a)`: a no-op when the node is already present. -/
def Graph.addNode (g : Graph) (a : Author) : Graph :=
  if a ∈ g.nodes then g else ⟨g.nodes ++ [a], g.edges⟩

/-- `G.add_edge(u, v)`: inserts both endpoints as nodes when missing, then the
undirected edge unless it is already present (set semantics). Like
`networkx`, it accepts `u = v` and then stores a self-loop. -/
def Graph.addEdge (g : Graph) (u v : Author) : Graph :=
  if ((g.addNode u).addNode v).hasEdgeB u v then (g.addNode u).addNode v
  else ⟨((g.addNode u).addNode v).nodes, ((g.addNode u).addNode v).edges ++ [(u, v)]⟩

/-- Number of stored copies of the undirected edge `{u, v}`. -/
def Graph.countEdge (g : Graph) (u v : Author) : Nat :=
  (g.edges.filter (fun e => decide (e = (u, v) ∨ e = (v, u)))).length

/-- A publication, reduced to what `ArxivClient.get_coauthors` extracts from an
`arxiv.Result`: its list of author names. -/
abbrev Publication := List Author

/-- The external publication query `ArxivClient.search_arxiv_publications`:
either raises (network/parse failure, `Except.error`) or returns the list of
publications for the author. -/
abbrev PubSource := Author → Except Unit (List Publication)

/-- Inner double loop of `build_collaboration_network`
(graph_client.py lines 82-87) for one publication: for every co-author name
different from the current author, add the undirected edge and, when the
co-author is not yet in `processed_authors`, append it to the queue at depth
`d + 1`. -/
def expandCoauthors (a : Author) (d : Nat) (processed : List Author) :
    List Author → Graph → List (Author × Nat) → Graph × List (Author × Nat)
  | [], g, q => (g, q)
  | c :: cs, g, q =>
    if c ≠ a then
      expandCoauthors a d processed cs (g.addEdge a c)
        (if c ∈ processed then q else q ++ [(c, d + 1)])
    else
      expandCoauthors a d processed cs g q

/-- Outer loop over the query results (graph_client.py lines 79-87). -/
def expandResults (a : Author) (d : Nat) (processed : List Author) :
    List Publication → Graph → List (Author × Nat) → Graph × List (Author × Nat)
  | [], g, q => (g, q)
  | pub :: pubs, g, q =>
    expandResults a d processed pubs (expandCoauthors a d processed pub g q).1
      (expandCoauthors a d processed pub g q).2

/-- The `while queue` loop of `build_collaboration_network`
(graph_client.py lines 59-89), with explicit fuel (`none` = fuel exhausted;
the Python loop always terminates on the inputs we instantiate). Alongside
the graph it returns the list of authors for which a publication query was
issued, in order. A failing query is not caught anywhere in
`build_collaboration_network` or `search_arxiv_publications`, so the
exception propagates and the whole build aborts (`Except.error`). -/
def buildLoop (source : PubSource) (maxDepth : Nat) :
    Nat → List (Author × Nat) → List Author → Graph → List Author →
    Option (Except Unit Graph × List Author)
  | 0, _, _, _, _ => none
  | _ + 1, [], _, g, queried => some (.ok g, queried)
  | fuel + 1, (a, d) :: rest, processed, g, queried =>
    if a ∈ processed then
      buildLoop source maxDepth fuel rest processed g queried
    else if maxDepth ≤ d then
      buildLoop source maxDepth fuel rest (a :: processed) (g.addNode a) queried
    else
      match source a with
      | .error e => some (.error e, queried ++ [a])
      | .ok results =>
        buildLoop source maxDepth fuel
          (expandResults a d (a :: processed) results (g.addNode a) rest).2
          (a :: processed)
          (expandResults a d (a :: processed) results (g.addNode a) rest).1
          (queried ++ [a])

/-- `GraphClient.build_collaboration_network(start_author, max_depth)`. -/
def build_collaboration_network (source : PubSource) (start_author : Author)
    (max_depth : Nat) (fuel : Nat) : Option (Except Unit Graph × List Author) :=
  buildLoop source max_depth fuel [(start_author, 0)] [] Graph.empty []

/-- The body of the row loop of `load_all_csv_edges`
(graph_client.py lines 254-256): `if len(row) == 2: G.add_edge(row[0], row[1])`,
any other row is skipped. -/
def loadRow (g : Graph) (row : List String) : Graph :=
  match row with
  | [u, v] => g.addEdge u v
  | _ => g

/-- The row loop of `load_all_csv_edges` over the data rows of one file. -/
def loadRows : List (List String) → Graph → Graph
  | [], g => g
  | row :: rest, g => loadRows rest (loadRow g row)

/-- Loading one `.csv` file (graph_client.py lines 250-256). A file is its list
of rows, each row a list of fields. `next(reader)` skips the header row; on a
file with zero rows it raises `StopIteration`, modelled as `Except.error`. -/
def loadFile (g : Graph) (file : List (List String)) : Except Unit Graph :=
  match file with
  | [] => .error ()
  | _header :: rows => .ok (loadRows rows g)

/-- The per-file loop of `load_all_csv_edges`: all files share one accumulated
graph; an exception raised on one file aborts the whole load. -/
def loadAllAux : List (List (List String)) → Graph → Except Unit Graph
  | [], g => .ok g
  | file :: rest, g =>
    match loadFile g file with
    | .error e => .error e
    | .ok g2 => loadAllAux rest g2

/-- `GraphClient.load_all_csv_edges`, over the `.csv` files of the directory
given as their row lists in listing order. -/
def load_all_csv_edges (files : List (List (List String))) : Except Unit Graph :=
  loadAllAux files Graph.empty

/-- `GraphClient.save_edges_to_csv` (graph_client.py lines 152-163), viewed as
the rows it writes: the header `Author1,Author2` followed by one two-field row
per stored edge, in edge-iteration order. -/
def save_edges_to_csv (g : Graph) : List (List String) :=
  ["Author1", "Author2"] :: g.edges.map (fun e => [e.1, e.2])

/-- The neighbours of `c`: endpoints of stored edges touching `c`. -/
def Graph.neighbors (g : Graph) (c : Author) : List Author :=
  (g.edges.filter (fun e => e.1 == c)).map Prod.snd ++
  (g.edges.filter (fun e => e.2 == c)).map Prod.fst

/-- Outcome of `find_connection` (graph_client.py lines 282-300), which reports
its result on the console: either author missing from the graph, no path, or a
shortest path from the first to the second author inclusive. -/
inductive PathResult where
  | notFound (who : Author)
  | noPath
  | path (p : List Author)
deriving DecidableEq, Repr

/-- Unweighted breadth-first shortest-path search, modelling the
`nx.shortest_path(G, source, target)` call of `find_connection` (and §4.3 of
the design: BFS from the source, stopping on the target, returning the
reconstructed path). Queue entries carry the current node together with the
reversed path from the source leading to it. -/
def bfsLoop (g : Graph) (target : Author) :
    List (Author × List Author) → List Author → Option (List Author)
  | [], _ => none
  | (c, p) :: rest, visited =>
    if h : c ∈ visited ∨ c ∉ g.nodes then
      bfsLoop g target rest visited
    else if c = target then
      some (c :: p).reverse
    else
      bfsLoop g target (rest ++ (g.neighbors c).map (fun n => (n, c :: p))) (c :: visited)
termination_by queue visited => ((g.nodes.toFinset \ visited.toFinset).card, queue.length)
decreasing_by
· apply Prod.Lex.right
  simp
· apply Prod.Lex.left
  push_neg at h
  have hmem : c ∈ g.nodes.toFinset \ visited.toFinset := by
    rw [Finset.mem_sdiff, List.mem_toFinset, List.mem_toFinset]
    exact ⟨h.2, h.1⟩
  have hset : g.nodes.toFinset \ (c :: visited).toFinset
      = (g.nodes.toFinset \ visited.toFinset).erase c := by
    rw [List.toFinset_cons, Finset.sdiff_insert]
  rw [hset]
  exact Finset.card_erase_lt_of_mem hmem

/-- `GraphClient.find_connection(G, author1, author2)`: check both endpoints
exist, then run the shortest-path search; `nx.NetworkXNoPath` is reported as
`noPath`. -/
def find_connection (g : Graph) (author1 author2 : Author) : PathResult :=
  if g.hasNodeB author1 = false then .notFound author1
  else if g.hasNodeB author2 = false then .notFound author2
  else
    match bfsLoop g author2 [(author1, [])] [] with
    | some p => .path p
    | none => .noPath

/-- Degrees of separation of a reported path (`len(path) - 1`). -/
def hopCount (p : List Author) : Nat := p.length - 1

/-- Two authors are adjacent when the graph stores an edge between them. -/
def adjacent (g : Graph) (u v : Author) : Prop := g.hasEdgeB u v = true

/-- `y` is connected to `x` in the graph (same component). -/
def Reachable (g : Graph) (x y : Author) : Prop :=
  Relation.ReflTransGen (adjacent g) x y

/-- `RPath g x p`: `p` is a reversed walk of the graph starting at `x`
(so `p` has head the current node and last element `x`). -/
inductive RPath (g : Graph) (x : Author) : List Author → Prop
  | base : RPath g x [x]
  | step {c : Author} {p : List Author} {d : Author} :
      RPath g x (c :: p) → g.hasEdgeB c d = true → RPath g x (d :: c :: p)

/-- No stored edge joins an author to itself. -/
def SelfLoopFree (g : Graph) : Prop := ∀ e ∈ g.edges, e.1 ≠ e.2

/-- Every undirected edge is stored at most once. -/
def EdgeDedup (g : Graph) : Prop := ∀ u v, g.countEdge u v ≤ 1

/-- The publication-source stub of the spec's worked example: querying `A`
yields one publication with co-authors `B` and `C`, querying `B` yields one
publication with co-authors `A` and `D`, everything else yields nothing. -/
def stubExample : PubSource := fun a =>
  if a = "A" then .ok [["B", "C"]]
  else if a = "B" then .ok [["A", "D"]]
  else .ok []

/-- A source with a cyclic co-authorship relation `A ↔ B`. -/
def stubCycle : PubSource := fun a =>
  if a = "A" then .ok [["B"]]
  else if a = "B" then .ok [["A"]]
  else .ok []

/-- A source for which the query for author `B` raises a network failure,
while `A` has co-authors `B` and `C` and every other query succeeds with no
results. -/
def stubFailB : PubSource := fun a =>
  if a = "A" then .ok [["B", "C"]]
  else if a = "B" then .error ()
  else .ok []

/-! ## Basic lemmas about the graph operations -/

theorem mem_nodes_addNode (g : Graph) (b a : Author) :
    a ∈ (g.addNode b).nodes ↔ a ∈ g.nodes ∨ a = b := by
  unfold Graph.addNode
  split <;> simp_all

theorem edges_addNode (g : Graph) (b : Author) : (g.addNode b).edges = g.edges := by
  unfold Graph.addNode
  split <;> rfl

theorem mem_nodes_addEdge (g : Graph) (u v a : Author) :
    a ∈ (g.addEdge u v).nodes ↔ a ∈ g.nodes ∨ a = u ∨ a = v := by
  unfold Graph.addEdge
  split <;> simp [mem_nodes_addNode, or_assoc]

theorem hasEdgeB_iff (g : Graph) (u v : Author) :
    g.hasEdgeB u v = true ↔ (u, v) ∈ g.edges ∨ (v, u) ∈ g.edges := by
  simp [Graph.hasEdgeB]

theorem hasEdgeB_addEdge (g : Graph) (u v x y : Author) :
    (g.addEdge u v).hasEdgeB x y = true ↔
      g.hasEdgeB x y = true ∨ (u = x ∧ v = y) ∨ (u = y ∧ v = x) := by
  unfold Graph.addEdge
  split
  case isTrue h =>
    rw [hasEdgeB_iff, edges_addNode, edges_addNode] at h
    simp only [hasEdgeB_iff, edges_addNode]
    constructor
    · tauto
    · rintro (hc | ⟨rfl, rfl⟩ | ⟨rfl, rfl⟩)
      · exact hc
      · exact h
      · tauto
  case isFalse h =>
    simp only [hasEdgeB_iff, edges_addNode, List.mem_append, List.mem_singleton,
      Prod.mk.injEq]
    constructor
    · rintro ((hc | ⟨rfl, rfl⟩) | (hc | ⟨rfl, rfl⟩)) <;> tauto
    · rintro ((hc | hc) | ⟨rfl, rfl⟩ | ⟨rfl, rfl⟩) <;> tauto

theorem edges_addEdge_subset (g : Graph) (u v : Author) :
    ∀ e ∈ (g.addEdge u v).edges, e ∈ g.edges ∨ e = (u, v) := by
  unfold Graph.addEdge
  split <;> simp_all [edges_addNode]

theorem countEdge_eq_zero (g : Graph) (u v : Author) (h : g.hasEdgeB u v = false) :
    g.countEdge u v = 0 := by
  rw [Graph.countEdge, List.length_eq_zero, List.filter_eq_nil_iff]
  intro e he
  simp only [decide_eq_true_eq]
  rintro (rfl | rfl) <;>
    exact absurd ((hasEdgeB_iff g u v).mpr (by tauto)) (by simp [h])

theorem countEdge_pos (g : Graph) (u v : Author) (h : g.hasEdgeB u v = true) :
    1 ≤ g.countEdge u v := by
  rw [hasEdgeB_iff] at h
  rw [Graph.countEdge]
  rcases h with h | h
  · have : (u, v) ∈ g.edges.filter (fun e => decide (e = (u, v) ∨ e = (v, u))) := by
      simp [List.mem_filter, h]
    exact List.length_pos.mpr (List.ne_nil_of_mem this)
  · have : (v, u) ∈ g.edges.filter (fun e => decide (e = (u, v) ∨ e = (v, u))) := by
      simp [List.mem_filter, h]
    exact List.length_pos.mpr (List.ne_nil_of_mem this)

theorem countEdge_addEdge (g : Graph) (u v x y : Author) (h : g.countEdge x y ≤ 1) :
    (g.addEdge u v).countEdge x y ≤ 1 := by
  rw [Graph.addEdge]
  split
  case isTrue hin =>
    simpa [Graph.countEdge, edges_addNode] using h
  case isFalse hin =>
    have hin2 : ¬ ((u, v) ∈ g.edges ∨ (v, u) ∈ g.edges) := fun hc =>
      hin (by rw [hasEdgeB_iff, edges_addNode, edges_addNode]; exact hc)
    simp only [Graph.countEdge, edges_addNode, List.filter_append, List.length_append]
    by_cases hm : (u, v) = (x, y) ∨ (u, v) = (y, x)
    · have hz : g.countEdge x y = 0 := by
        apply countEdge_eq_zero
        rw [Bool.eq_false_iff]
        intro hcon
        rw [hasEdgeB_iff] at hcon
        apply hin2
        rcases hm with hm | hm <;> simp only [Prod.mk.injEq] at hm <;>
          obtain ⟨rfl, rfl⟩ := hm <;> tauto
      rw [Graph.countEdge] at hz
      rw [hz, List.filter_singleton, decide_eq_true hm]
      simp
    · rw [Graph.countEdge] at h
      rw [List.filter_singleton, decide_eq_false hm]
      simpa using h

/-! ## Characterization of the CSV load -/

theorem loadRows_hasEdgeB (rows : List (List String)) :
    ∀ (g : Graph) (u v : Author),
      (loadRows rows g).hasEdgeB u v = true ↔
        g.hasEdgeB u v = true ∨ ∃ row ∈ rows, row = [u, v] ∨ row = [v, u] := by
  induction rows with
  | nil => simp [loadRows]
  | cons row rest ih =>
    intro g u v
    rw [loadRows, ih, List.exists_mem_cons_iff]
    rcases row with _ | ⟨x, _ | ⟨y, _ | ⟨z, t⟩⟩⟩
    · simp [loadRow]
    · simp [loadRow]
    · show (g.addEdge x y).hasEdgeB u v = true ∨ _ ↔ _
      rw [hasEdgeB_addEdge]
      have hx : (([x, y] : List String) = [u, v] ∨ ([x, y] : List String) = [v, u]) ↔
          ((x = u ∧ y = v) ∨ (x = v ∧ y = u)) := by
        simp
      rw [hx]
      exact or_assoc
    · simp [loadRow]

theorem loadRows_mem_nodes (rows : List (List String)) :
    ∀ (g : Graph) (a : Author),
      a ∈ (loadRows rows g).nodes ↔
        a ∈ g.nodes ∨ ∃ row ∈ rows, ∃ u v, row = [u, v] ∧ (a = u ∨ a = v) := by
  induction rows with
  | nil => simp [loadRows]
  | cons row rest ih =>
    intro g a
    rw [loadRows, ih, List.exists_mem_cons_iff]
    rcases row with _ | ⟨x, _ | ⟨y, _ | ⟨z, t⟩⟩⟩
    · simp [loadRow]
    · simp [loadRow]
    · show a ∈ (g.addEdge x y).nodes ∨ _ ↔ _
      rw [mem_nodes_addEdge]
      have hx : (∃ u v, ([x, y] : List String) = [u, v] ∧ (a = u ∨ a = v)) ↔
          (a = x ∨ a = y) := by
        constructor
        · rintro ⟨u, v, huv, hav⟩
          simp only [List.cons.injEq, and_true] at huv
          obtain ⟨rfl, rfl⟩ := huv
          exact hav
        · intro hav
          exact ⟨x, y, rfl, hav⟩
      rw [hx]
      exact or_assoc
    · simp [loadRow]

theorem loadAllAux_ok (files : List (List (List String))) :
    ∀ g : Graph, (∀ f ∈ files, f ≠ []) →
      ∃ gr, loadAllAux files g = .ok gr ∧
        (∀ u v, (gr.hasEdgeB u v = true ↔
          g.hasEdgeB u v = true ∨
            ∃ f ∈ files, ∃ row ∈ f.tail, row = [u, v] ∨ row = [v, u])) ∧
        (∀ a, a ∈ gr.nodes ↔
          a ∈ g.nodes ∨
            ∃ f ∈ files, ∃ row ∈ f.tail, ∃ u v, row = [u, v] ∧ (a = u ∨ a = v)) := by
  induction files with
  | nil =>
    intro g _
    exact ⟨g, rfl, by simp, by simp⟩
  | cons file rest ih =>
    intro g hne
    obtain ⟨hdr, rows, rfl⟩ : ∃ hdr rows, file = hdr :: rows := by
      rcases file with _ | ⟨hdr, rows⟩
      · exact absurd rfl (hne _ (by simp))
      · exact ⟨hdr, rows, rfl⟩
    obtain ⟨gr, hok, hedge, hnode⟩ := ih (loadRows rows g) (fun f hf => hne f (by simp [hf]))
    refine ⟨gr, ?_, ?_, ?_⟩
    · exact hok
    · intro u v
      rw [hedge u v, loadRows_hasEdgeB, List.exists_mem_cons_iff, List.tail_cons]
      exact or_assoc
    · intro a
      rw [hnode a, loadRows_mem_nodes, List.exists_mem_cons_iff, List.tail_cons]
      exact or_assoc

theorem loadAllAux_error (files : List (List (List String))) :
    ∀ g : Graph, [] ∈ files → loadAllAux files g = .error () := by
  induction files with
  | nil => simp
  | cons file rest ih =>
    intro g hmem
    rcases file with _ | ⟨hdr, rows⟩
    · rfl
    · have hrest : ([] : List (List String)) ∈ rest := by
        rcases List.mem_cons.mp hmem with hc | hc
        · exact absurd hc (by simp)
        · exact hc
      exact ih (loadRows rows g) hrest

theorem edgeDedup_empty : EdgeDedup Graph.empty := by
  intro u v
  simp [Graph.countEdge, Graph.empty]

theorem edgeDedup_loadRow (g : Graph) (row : List String) (h : EdgeDedup g) :
    EdgeDedup (loadRow g row) := by
  rcases row with _ | ⟨x, _ | ⟨y, _ | ⟨z, t⟩⟩⟩
  · exact h
  · exact h
  · exact fun u v => countEdge_addEdge g x y u v (h u v)
  · exact h

theorem edgeDedup_loadRows (rows : List (List String)) :
    ∀ g : Graph, EdgeDedup g → EdgeDedup (loadRows rows g) := by
  induction rows with
  | nil => exact fun g h => h
  | cons row rest ih => exact fun g h => ih (loadRow g row) (edgeDedup_loadRow g row h)

theorem edgeDedup_loadAllAux (files : List (List (List String))) :
    ∀ g gr : Graph, EdgeDedup g → loadAllAux files g = .ok gr → EdgeDedup gr := by
  induction files with
  | nil =>
    intro g gr h heq
    simp only [loadAllAux, Except.ok.injEq] at heq
    exact heq ▸ h
  | cons file rest ih =>
    intro g gr h heq
    rcases file with _ | ⟨hdr, rows⟩
    · exact absurd heq (by simp [loadAllAux, loadFile])
    · exact ih (loadRows rows g) gr (edgeDedup_loadRows rows g h) heq

/-! ## Invariants of the builder -/

theorem selfLoopFree_empty : SelfLoopFree Graph.empty := by
  intro e he
  simp [Graph.empty] at he

theorem selfLoopFree_addEdge (g : Graph) (u v : Author) (hne : u ≠ v)
    (h : SelfLoopFree g) : SelfLoopFree (g.addEdge u v) := by
  intro e he
  rcases edges_addEdge_subset g u v e he with he2 | rfl
  · exact h e he2
  · exact hne

theorem selfLoopFree_addNode (g : Graph) (a : Author) (h : SelfLoopFree g) :
    SelfLoopFree (g.addNode a) := by
  intro e he
  rw [edges_addNode] at he
  exact h e he

theorem selfLoopFree_expandCoauthors (a : Author) (d : Nat) (processed : List Author) :
    ∀ (cs : List Author) (g : Graph) (q : List (Author × Nat)), SelfLoopFree g →
      SelfLoopFree (expandCoauthors a d processed cs g q).1 := by
  intro cs
  induction cs with
  | nil => exact fun g q h => h
  | cons c cs ih =>
    intro g q h
    rw [expandCoauthors]
    split
    case isTrue hne => exact ih _ _ (selfLoopFree_addEdge g a c (Ne.symm hne) h)
    case isFalse hne => exact ih _ _ h

theorem selfLoopFree_expandResults (a : Author) (d : Nat) (processed : List Author) :
    ∀ (results : List Publication) (g : Graph) (q : List (Author × Nat)), SelfLoopFree g →
      SelfLoopFree (expandResults a d processed results g q).1 := by
  intro results
  induction results with
  | nil => exact fun g q h => h
  | cons pub pubs ih =>
    intro g q h
    rw [expandResults]
    exact ih _ _ (selfLoopFree_expandCoauthors a d processed pub g q h)

theorem selfLoopFree_buildLoop (source : PubSource) (maxDepth : Nat) :
    ∀ (fuel : Nat) (queue : List (Author × Nat)) (processed : List Author) (g : Graph)
      (queried : List Author) (gr : Graph) (q2 : List Author), SelfLoopFree g →
      buildLoop source maxDepth fuel queue processed g queried = some (.ok gr, q2) →
      SelfLoopFree gr := by
  intro fuel
  induction fuel with
  | zero =>
    intro queue processed g queried gr q2 h heq
    exact absurd heq (by simp [buildLoop])
  | succ fuel ih =>
    intro queue processed g queried gr q2 h heq
    rcases queue with _ | ⟨⟨a, d⟩, rest⟩
    · simp only [buildLoop, Option.some.injEq, Prod.mk.injEq, Except.ok.injEq] at heq
      exact heq.1 ▸ h
    · rw [buildLoop] at heq
      by_cases hmem : a ∈ processed
      · rw [if_pos hmem] at heq
        exact ih rest processed g queried gr q2 h heq
      · rw [if_neg hmem] at heq
        by_cases hd : maxDepth ≤ d
        · rw [if_pos hd] at heq
          exact ih rest (a :: processed) (g.addNode a) queried gr q2
            (selfLoopFree_addNode g a h) heq
        · rw [if_neg hd] at heq
          cases hsrc : source a with
          | error e =>
            rw [hsrc] at heq
            simp at heq
          | ok results =>
            rw [hsrc] at heq
            exact ih _ _ _ _ gr q2
              (selfLoopFree_expandResults a d (a :: processed) results (g.addNode a) rest
                (selfLoopFree_addNode g a h)) heq

theorem buildLoop_queried_nodup (source : PubSource) (maxDepth : Nat) :
    ∀ (fuel : Nat) (queue : List (Author × Nat)) (processed : List Author) (g : Graph)
      (queried : List Author), queried.Nodup → (∀ b ∈ queried, b ∈ processed) →
      ∀ (r : Except Unit Graph) (q2 : List Author),
        buildLoop source maxDepth fuel queue processed g queried = some (r, q2) →
        q2.Nodup := by
  intro fuel
  induction fuel with
  | zero =>
    intro queue processed g queried hnd hsub r q2 heq
    exact absurd heq (by simp [buildLoop])
  | succ fuel ih =>
    intro queue processed g queried hnd hsub r q2 heq
    rcases queue with _ | ⟨⟨a, d⟩, rest⟩
    · simp only [buildLoop, Option.some.injEq, Prod.mk.injEq] at heq
      exact heq.2 ▸ hnd
    · rw [buildLoop] at heq
      by_cases hmem : a ∈ processed
      · rw [if_pos hmem] at heq
        exact ih rest processed g queried hnd hsub r q2 heq
      · rw [if_neg hmem] at heq
        have hnotq : a ∉ queried := fun hc => hmem (hsub a hc)
        have hnd2 : (queried ++ [a]).Nodup :=
          List.nodup_append.mpr ⟨hnd, List.nodup_singleton a,
            fun b hb => by simp only [List.mem_singleton]; exact fun hba => hnotq (hba ▸ hb)⟩
        by_cases hd : maxDepth ≤ d
        · rw [if_pos hd] at heq
          exact ih rest (a :: processed) (g.addNode a) queried hnd
            (fun b hb => List.mem_cons_of_mem a (hsub b hb)) r q2 heq
        · rw [if_neg hd] at heq
          cases hsrc : source a with
          | error e =>
            rw [hsrc] at heq
            simp only [Option.some.injEq, Prod.mk.injEq] at heq
            exact heq.2 ▸ hnd2
          | ok results =>
            rw [hsrc] at heq
            refine ih _ (a :: processed) _ (queried ++ [a]) hnd2 ?_ r q2 heq
            intro b hb
            rcases List.mem_append.mp hb with hb | hb
            · exact List.mem_cons_of_mem a (hsub b hb)
            · simp only [List.mem_singleton] at hb
              exact hb ▸ List.mem_cons_self a processed

/-! ## Soundness of the breadth-first path search -/

theorem hasEdgeB_of_mem_neighbors (g : Graph) (c n : Author) (h : n ∈ g.neighbors c) :
    g.hasEdgeB c n = true := by
  rcases List.mem_append.mp h with h1 | h1
  · obtain ⟨e, he, rfl⟩ := List.mem_map.mp h1
    obtain ⟨hee, hc⟩ := List.mem_filter.mp he
    rw [beq_iff_eq] at hc
    rw [hasEdgeB_iff]
    left
    rw [← hc]
    simpa using hee
  · obtain ⟨e, he, rfl⟩ := List.mem_map.mp h1
    obtain ⟨hee, hc⟩ := List.mem_filter.mp he
    rw [beq_iff_eq] at hc
    rw [hasEdgeB_iff]
    right
    rw [← hc]
    simpa using hee

theorem rpath_reachable (g : Graph) (x : Author) :
    ∀ p, RPath g x p → ∀ c rest, p = c :: rest → Reachable g x c := by
  intro p hp
  induction hp with
  | base =>
    intro c rest hc
    simp only [List.cons.injEq] at hc
    exact hc.1 ▸ Relation.ReflTransGen.refl
  | step hcp hedge ih =>
    intro c2 rest2 heq
    simp only [List.cons.injEq] at heq
    exact heq.1 ▸ Relation.ReflTransGen.tail (ih _ _ rfl) hedge

theorem bfsLoop_cons_eq (g : Graph) (target c : Author) (p : List Author)
    (rest : List (Author × List Author)) (visited : List Author) :
    bfsLoop g target ((c, p) :: rest) visited =
      if c ∈ visited ∨ c ∉ g.nodes then bfsLoop g target rest visited
      else if c = target then some (c :: p).reverse
      else bfsLoop g target (rest ++ (g.neighbors c).map (fun n => (n, c :: p)))
        (c :: visited) := by
  rw [bfsLoop.eq_def]
  rfl

theorem bfsLoop_nil (g : Graph) (target : Author) (visited : List Author) :
    bfsLoop g target [] visited = none := by
  rw [bfsLoop.eq_def]

theorem bfsLoop_self (g : Graph) (x : Author) (hx : x ∈ g.nodes) :
    bfsLoop g x [(x, [])] [] = some [x] := by
  rw [bfsLoop_cons_eq, if_neg (by simp [hx]), if_pos rfl]
  rfl

theorem bfsLoop_sound (g : Graph) (x target : Author) :
    ∀ (queue : List (Author × List Author)) (visited : List Author),
      (∀ e ∈ queue, RPath g x (e.1 :: e.2)) →
      ∀ res, bfsLoop g target queue visited = some res → Reachable g x target := by
  intro queue visited
  induction queue, visited using bfsLoop.induct g target with
  | case1 visited =>
    intro hinv res heq
    rw [bfsLoop_nil] at heq
    exact Option.noConfusion heq
  | case2 c p rest visited h ih =>
    intro hinv res heq
    rw [bfsLoop_cons_eq, if_pos h] at heq
    exact ih (fun e he => hinv e (List.mem_cons_of_mem _ he)) res heq
  | case3 p rest visited h =>
    intro hinv res heq
    exact rpath_reachable g x (target :: p) (hinv (target, p) (by simp)) target p rfl
  | case4 c p rest visited h hc ih =>
    intro hinv res heq
    rw [bfsLoop_cons_eq, if_neg h, if_neg hc] at heq
    refine ih ?_ res heq
    intro e he
    rcases List.mem_append.mp he with he | he
    · exact hinv e (List.mem_cons_of_mem _ he)
    · obtain ⟨n, hn, rfl⟩ := List.mem_map.mp he
      exact RPath.step (hinv (c, p) (by simp)) (hasEdgeB_of_mem_neighbors g c n hn)

theorem reachable_no_edges (ns : List Author) (a b : Author)
    (h : Reachable ⟨ns, []⟩ a b) : a = b := by
  induction h with
  | refl => rfl
  | tail h1 h2 ih =>
    simp [adjacent, Graph.hasEdgeB] at h2

/-! ## The claims -/

/-- C1: the claim says a failing PublicationSource query is caught per-author,
treated as "no publications", and the traversal of other queued authors
continues. The code has no try/except: with a source that raises on author
`B`, `build_collaboration_network("A", 2)` propagates the exception and aborts
after querying only `A` and `B` — author `C`, already queued, is never
processed and no graph is returned. -/
theorem c1_failing_query_aborts_build :
    build_collaboration_network stubFailB "A" 2 10 =
      some (.error (), ["A", "B"]) := by
  rfl

/-- C2 (counterexample): `load_all_csv_edges` over one file whose data row has
the same name in both fields returns a graph that does contain the self-edge
`(A, A)`, so the claim that no operation ever creates a self-edge is false. -/
theorem c2_counterexample_csv_self_edge :
    load_all_csv_edges [[["Author1", "Author2"], ["A", "A"]]] =
        .ok ⟨["A"], [("A", "A")]⟩ ∧
      Graph.hasEdgeB ⟨["A"], [("A", "A")]⟩ "A" "A" = true :=
  ⟨rfl, rfl⟩

/-- C2 (amended): the builder never creates a self-edge `(A, A)`, even when a
publication's author list contains the author itself; the CSV loader, however,
does create one when a row repeats a name (see the counterexample). -/
theorem c2_amended_build_no_self_edge :
    ∀ (source : PubSource) (seed : Author) (maxDepth fuel : Nat) (gr : Graph)
      (q : List Author),
      build_collaboration_network source seed maxDepth fuel = some (.ok gr, q) →
      ∀ a : Author, gr.hasEdgeB a a = false := by
  intro source seed maxDepth fuel gr q heq a
  have hsf : SelfLoopFree gr :=
    selfLoopFree_buildLoop source maxDepth fuel _ _ _ _ gr q selfLoopFree_empty heq
  rw [Bool.eq_false_iff]
  intro hc
  rw [hasEdgeB_iff] at hc
  rcases hc with hc | hc <;> exact hsf _ hc rfl

theorem c2_amended_build_no_self_edge_witness :
    Graph.hasEdgeB ⟨["A", "B", "C"], [("A", "B"), ("A", "C")]⟩ "A" "A" = false :=
  c2_amended_build_no_self_edge stubExample "A" 1 10
    ⟨["A", "B", "C"], [("A", "B"), ("A", "C")]⟩ ["A"] (by rfl) "A"

/-- C3: for every seed author and every PublicationSource, a build at
`max_depth = 0` returns the graph with exactly the seed node and no edges, and
issues no publication query at all (the queried-author list is empty). -/
theorem c3_depth_zero_single_node :
    ∀ (source : PubSource) (seed : Author) (fuel : Nat),
      build_collaboration_network source seed 0 (fuel + 2) =
        some (.ok ⟨[seed], []⟩, []) := by
  intro source seed fuel
  rw [build_collaboration_network, buildLoop]
  rw [if_neg (List.not_mem_nil seed), if_pos (Nat.zero_le 0), buildLoop]
  simp [Graph.addNode, Graph.empty]

/-- C4: on the spec's stub (A has co-authors B and C; B has co-authors A and
D; everyone else none), `build_collaboration_network("A", 1)` returns exactly
the nodes A, B, C and the edges (A,B), (A,C), queries only A, and D never
appears because B, enqueued at depth 1, is not expanded. -/
theorem c4_worked_example :
    build_collaboration_network stubExample "A" 1 10 =
      some (.ok ⟨["A", "B", "C"], [("A", "B"), ("A", "C")]⟩, ["A"]) := by
  rfl

/-- C5: for every source, seed and depth bound, the list of authors for which
a publication query is issued during a completed build has no duplicates — an
author dequeued a second time is discarded via the visited set. -/
theorem c5_at_most_one_query_per_author :
    ∀ (source : PubSource) (seed : Author) (maxDepth fuel : Nat)
      (r : Except Unit Graph) (q : List Author),
      build_collaboration_network source seed maxDepth fuel = some (r, q) →
      q.Nodup := by
  intro source seed maxDepth fuel r q heq
  exact buildLoop_queried_nodup source maxDepth fuel _ _ _ _
    List.nodup_nil (by simp) r q heq

theorem c5_at_most_one_query_per_author_witness :
    (["A", "B"] : List Author).Nodup :=
  c5_at_most_one_query_per_author stubCycle "A" 3 10
    (.ok ⟨["A", "B"], [("A", "B")]⟩) ["A", "B"] (by rfl)

/-- C6: for every graph and author names X and Y: if X is not a node, the
path query returns `notFound X` (a normal outcome, not an exception); if X and
Y are both nodes but not connected, it returns `noPath`; and if X is a node,
querying X against itself returns the path `[X]` with hop count 0. -/
theorem c6_path_query_outcomes :
    ∀ (g : Graph) (x y : Author),
      (g.hasNodeB x = false → find_connection g x y = .notFound x) ∧
      (g.hasNodeB x = true → g.hasNodeB y = true → ¬ Reachable g x y →
        find_connection g x y = .noPath) ∧
      (g.hasNodeB x = true →
        find_connection g x x = .path [x] ∧ hopCount [x] = 0) := by
  intro g x y
  refine ⟨?_, ?_, ?_⟩
  · intro hx
    rw [find_connection, if_pos hx]
  · intro hx hy hreach
    rw [find_connection, if_neg (by simp [hx]), if_neg (by simp [hy])]
    cases hbfs : bfsLoop g y [(x, [])] [] with
    | none => rfl
    | some p =>
      refine absurd (bfsLoop_sound g x y [(x, [])] [] ?_ p hbfs) hreach
      intro e he
      simp only [List.mem_singleton] at he
      subst he
      exact RPath.base
  · intro hx
    have hxn : x ∈ g.nodes := by simpa [Graph.hasNodeB] using hx
    constructor
    · rw [find_connection, if_neg (by simp [hx]), if_neg (by simp [hx]),
        bfsLoop_self g x hxn]
    · rfl

theorem c6_path_query_outcomes_witness :
    find_connection ⟨["A"], []⟩ "Z" "A" = .notFound "Z" ∧
    find_connection ⟨["A", "B"], []⟩ "A" "B" = .noPath ∧
    (find_connection ⟨["A"], []⟩ "A" "A" = .path ["A"] ∧ hopCount ["A"] = 0) := by
  refine ⟨(c6_path_query_outcomes ⟨["A"], []⟩ "Z" "A").1 (by decide),
    (c6_path_query_outcomes ⟨["A", "B"], []⟩ "A" "B").2.1 (by decide) (by decide) ?_,
    (c6_path_query_outcomes ⟨["A"], []⟩ "A" "A").2.2 (by decide)⟩
  intro hr
  exact absurd (reachable_no_edges ["A", "B"] "A" "B" hr) (by decide)

/-- C7: over edge files that each have a header row, `load_all_csv_edges`
raises nothing, and the loaded graph has an edge between `u` and `v` exactly
when some file has a well-formed two-field data row `[u, v]` (in either
order) — rows with any other field count are ignored. -/
theorem c7_malformed_rows_skipped :
    ∀ files : List (List (List String)), (∀ f ∈ files, f ≠ []) →
      ∃ g, load_all_csv_edges files = .ok g ∧
        ∀ u v : Author, (g.hasEdgeB u v = true ↔
          ∃ f ∈ files, ∃ row ∈ f.tail, row = [u, v] ∨ row = [v, u]) := by
  intro files hne
  obtain ⟨g, hok, hedge, _⟩ := loadAllAux_ok files Graph.empty hne
  refine ⟨g, hok, fun u v => ?_⟩
  rw [hedge u v]
  simp [Graph.hasEdgeB, Graph.empty]

theorem c7_malformed_rows_skipped_witness :
    ∃ g, load_all_csv_edges
        [[["Author1", "Author2"], ["A", "B", "C"], ["A", "B"], ["X"]]] = .ok g ∧
      ∀ u v : Author, (g.hasEdgeB u v = true ↔
        ∃ f ∈ [[["Author1", "Author2"], ["A", "B", "C"], ["A", "B"], ["X"]]],
          ∃ row ∈ f.tail, row = [u, v] ∨ row = [v, u]) :=
  c7_malformed_rows_skipped
    [[["Author1", "Author2"], ["A", "B", "C"], ["A", "B"], ["X"]]] (by decide)

/-- C8: when two edge files both contain the data row `[A, B]`,
`load_all_csv_edges` over both returns a graph storing exactly one copy of the
undirected edge between A and B — the merge is a set union in which duplicate
edges collapse. -/
theorem c8_duplicate_edges_collapse :
    ∀ (f1 f2 : List (List String)) (A B : Author), f1 ≠ [] → f2 ≠ [] →
      [A, B] ∈ f1.tail → [A, B] ∈ f2.tail →
      ∃ g, load_all_csv_edges [f1, f2] = .ok g ∧ g.countEdge A B = 1 := by
  intro f1 f2 A B h1 h2 hm1 hm2
  obtain ⟨g, hok, hedge, _⟩ := loadAllAux_ok [f1, f2] Graph.empty (by
    intro f hf
    simp only [List.mem_cons, List.mem_singleton, List.not_mem_nil, or_false] at hf
    rcases hf with rfl | rfl
    · exact h1
    · exact h2)
  refine ⟨g, hok, ?_⟩
  have hmem : g.hasEdgeB A B = true := by
    rw [hedge A B]
    exact Or.inr ⟨f1, by simp, [A, B], hm1, Or.inl rfl⟩
  have hle : g.countEdge A B ≤ 1 :=
    edgeDedup_loadAllAux [f1, f2] Graph.empty g edgeDedup_empty hok A B
  have hge := countEdge_pos g A B hmem
  omega

theorem c8_duplicate_edges_collapse_witness :
    ∃ g, load_all_csv_edges [[["Author1", "Author2"], ["A", "B"]],
        [["Author1", "Author2"], ["A", "B"]]] = .ok g ∧
      g.countEdge "A" "B" = 1 :=
  c8_duplicate_edges_collapse [["Author1", "Author2"], ["A", "B"]]
    [["Author1", "Author2"], ["A", "B"]] "A" "B"
    (by decide) (by decide) (by decide) (by decide)

/-- C9: loading a directory containing exactly the CSV file written by
`save_edges_to_csv` for a graph yields a graph with the same undirected edge
set, but whose node set consists only of the endpoints of those edges — every
isolated node of the original graph is absent after the round trip. -/
theorem c9_save_load_round_trip :
    ∀ g : Graph, ∃ g2, load_all_csv_edges [save_edges_to_csv g] = .ok g2 ∧
      (∀ u v : Author, (g2.hasEdgeB u v = true ↔ g.hasEdgeB u v = true)) ∧
      (∀ a : Author, a ∈ g2.nodes ↔ ∃ e ∈ g.edges, a = e.1 ∨ a = e.2) := by
  intro g
  obtain ⟨g2, hok, hedge, hnode⟩ := loadAllAux_ok [save_edges_to_csv g] Graph.empty (by
    intro f hf
    simp only [List.mem_singleton] at hf
    subst hf
    simp [save_edges_to_csv])
  refine ⟨g2, hok, ?_, ?_⟩
  · intro u v
    rw [hedge u v]
    constructor
    · rintro (hc | ⟨f, hf, row, hrow, hre⟩)
      · simp [Graph.hasEdgeB, Graph.empty] at hc
      · simp only [List.mem_singleton] at hf
        subst hf
        rw [save_edges_to_csv, List.tail_cons] at hrow
        obtain ⟨e, he, rfl⟩ := List.mem_map.mp hrow
        rw [hasEdgeB_iff]
        rcases hre with hre | hre
        · simp only [List.cons.injEq, and_true] at hre
          obtain ⟨h1, h2⟩ := hre
          left
          rw [← h1, ← h2]
          simpa using he
        · simp only [List.cons.injEq, and_true] at hre
          obtain ⟨h1, h2⟩ := hre
          right
          rw [← h1, ← h2]
          simpa using he
    · intro hc
      right
      rw [hasEdgeB_iff] at hc
      rcases hc with hc | hc
      · exact ⟨save_edges_to_csv g, by simp, [u, v],
          by rw [save_edges_to_csv, List.tail_cons]
             exact List.mem_map.mpr ⟨(u, v), hc, rfl⟩,
          Or.inl rfl⟩
      · exact ⟨save_edges_to_csv g, by simp, [v, u],
          by rw [save_edges_to_csv, List.tail_cons]
             exact List.mem_map.mpr ⟨(v, u), hc, rfl⟩,
          Or.inr rfl⟩
  · intro a
    rw [hnode a]
    constructor
    · rintro (hc | ⟨f, hf, row, hrow, u, v, hre, hav⟩)
      · simp [Graph.empty] at hc
      · simp only [List.mem_singleton] at hf
        subst hf
        rw [save_edges_to_csv, List.tail_cons] at hrow
        obtain ⟨e, he, rfl⟩ := List.mem_map.mp hrow
        simp only [List.cons.injEq, and_true] at hre
        obtain ⟨h1, h2⟩ := hre
        rw [← h1, ← h2] at hav
        exact ⟨e, he, hav⟩
    · rintro ⟨e, he, hav⟩
      right
      exact ⟨save_edges_to_csv g, by simp, [e.1, e.2],
        by rw [save_edges_to_csv, List.tail_cons]
           exact List.mem_map.mpr ⟨e, he, rfl⟩,
        e.1, e.2, rfl, hav⟩

/-- C10: if the directory passed to `load_all_csv_edges` contains a `.csv`
file with zero rows, skipping that file's header raises, the whole load aborts
and no graph is returned — edges already read from other files are lost. -/
theorem c10_zero_row_file_aborts_load :
    ∀ files : List (List (List String)), [] ∈ files →
      load_all_csv_edges files = .error () := by
  intro files hmem
  exact loadAllAux_error files Graph.empty hmem

theorem c10_zero_row_file_aborts_load_witness :
    load_all_csv_edges [[["Author1", "Author2"], ["A", "B"]], []] = .error () :=
  c10_zero_row_file_aborts_load [[["Author1", "Author2"], ["A", "B"]], []]
    (by simp)

end ArxivApi
